import Mathlib

/-!
# Verification of the CHSH-inequality notebook

Shallow embedding of `2_CHSH_inequality_v2 (1).py`, a PennyLane notebook that
prepares a Bell pair on two qubits, measures four correlators, and combines
them into the CHSH quantity `<A0 B0> + <A0 B1> + <A1 B0> - <A1 B1>`.

All gates and observables in the notebook (`Hadamard`, `CNOT`, `PauliZ`,
`PauliX`, and real linear combinations thereof) have real matrix
representations, and the Bell state is a real vector, so we embed states as
real vectors indexed by `Fin 2 × Fin 2` (wire 0 × wire 1) and operators as
real matrices over that index type.  `qml.expval(obs)` on a pure state is
`⟨ψ| obs |ψ⟩`, a real dot product here.
-/

open Matrix

noncomputable section

/-- Index type of the 2-qubit device `qml.device("default.qubit", wires = 2)`:
the first component is the computational-basis value of wire 0, the second of
wire 1. -/
abbrev Q2 := Fin 2 × Fin 2

/-- Matrix of `qml.PauliZ` on one qubit. -/
def PauliZ : Matrix (Fin 2) (Fin 2) ℝ := !![1, 0; 0, -1]

/-- Matrix of `qml.PauliX` on one qubit. -/
def PauliX : Matrix (Fin 2) (Fin 2) ℝ := !![0, 1; 1, 0]

/-- Matrix of `qml.Hadamard` on one qubit. -/
def Hadamard : Matrix (Fin 2) (Fin 2) ℝ := (Real.sqrt 2)⁻¹ • !![1, 1; 1, -1]

/-- Kronecker (tensor) product placing `A` on wire 0 and `B` on wire 1; this is
how PennyLane embeds single-qubit operators into the 2-wire device. -/
def kron (A B : Matrix (Fin 2) (Fin 2) ℝ) : Matrix Q2 Q2 ℝ :=
  Matrix.of fun p q => A p.1 q.1 * B p.2 q.2

/-- Matrix of `qml.CNOT(wires = [0,1])`: maps basis state `|k,l⟩` to
`|k, k+l⟩` (addition in `Fin 2`, i.e. XOR of target with control). -/
def CNOT : Matrix Q2 Q2 ℝ :=
  Matrix.of fun p q => if p.1 = q.1 ∧ p.2 = q.1 + q.2 then 1 else 0

/-- The initial state `|00⟩` of the device. -/
def ket00 : Q2 → ℝ := fun p => if p = (0, 0) then 1 else 0

/-- `bell_pair()`: the state obtained from `|00⟩` by `qml.Hadamard(wires=0)`
followed by `qml.CNOT(wires=[0,1])`, i.e. `|Φ+⟩ = (|00⟩ + |11⟩)/√2`. -/
def bell_pair : Q2 → ℝ := CNOT.mulVec ((kron Hadamard 1).mulVec ket00)

/-- `measure_obs(obs)` with the exact (analytic, infinite-shot) simulator:
the expectation value `⟨ψ| obs |ψ⟩` of `obs` in the Bell state. -/
def measure_obs (obs : Matrix Q2 Q2 ℝ) : ℝ :=
  Matrix.dotProduct bell_pair (obs.mulVec bell_pair)

/-- `alice_observables()`: `A0 = qml.PauliZ(wires=0)`,
`A1 = qml.PauliX(wires=0)`, embedded in the 2-wire device. -/
def alice_observables : Matrix Q2 Q2 ℝ × Matrix Q2 Q2 ℝ :=
  (kron PauliZ 1, kron PauliX 1)

/-- `bob_observables()`: `B0 = qml.PauliZ(wires=1)`,
`B1 = qml.PauliX(wires=1)`. -/
def bob_observables : Matrix Q2 Q2 ℝ × Matrix Q2 Q2 ℝ :=
  (kron 1 PauliZ, kron 1 PauliX)

/-- `bob_observables_optimal()`:
`B0 = (qml.PauliZ(wires=1) + qml.PauliX(wires=1)) / np.sqrt(2)` and
`B1 = (qml.PauliZ(wires=1) - qml.PauliX(wires=1)) / np.sqrt(2)`
(division by the scalar `√2` written as scalar multiplication by `(√2)⁻¹`). -/
def bob_observables_optimal : Matrix Q2 Q2 ℝ × Matrix Q2 Q2 ℝ :=
  ((Real.sqrt 2)⁻¹ • (kron 1 PauliZ + kron 1 PauliX),
   (Real.sqrt 2)⁻¹ • (kron 1 PauliZ - kron 1 PauliX))

/-- The aggregation line of `compute_chsh`:
`CHSH_expval = np.sum(expvals[:3]) - expvals[3]`. -/
def chsh_aggregate (expvals : List ℝ) : ℝ :=
  (expvals.take 3).sum - expvals.getD 3 0

/-- `compute_chsh(A0, A1, B0, B1)`: builds the list
`[A0 @ B0, A0 @ B1, A1 @ B0, A1 @ B1]` (PennyLane's `@` is operator
composition, i.e. matrix product on the full device), measures each with
`measure_obs`, and aggregates with `np.sum(expvals[:3]) - expvals[3]`. -/
def compute_chsh (A0 A1 B0 B1 : Matrix Q2 Q2 ℝ) : ℝ :=
  chsh_aggregate (([A0 * B0, A0 * B1, A1 * B0, A1 * B1]).map measure_obs)

/-- The hardware-section reconstruction (lines 253–259): from the four raw
expectation values `z0 = <A0 Z1>`, `x0 = <A0 X1>`, `z1 = <A1 Z1>`,
`x1 = <A1 X1>` it reconstructs the four correlators and forms
`A0B0 + A0B1 + A1B0 - A1B1`. -/
def CHSH_expval (z0 x0 z1 x1 : ℝ) : ℝ :=
  let A0B0 := (z0 + x0) / Real.sqrt 2
  let A0B1 := (z0 - x0) / Real.sqrt 2
  let A1B0 := (z1 + x1) / Real.sqrt 2
  let A1B1 := (z1 - x1) / Real.sqrt 2
  A0B0 + A0B1 + A1B0 - A1B1

/-- Eigenvector of Bob's optimal `B0` with eigenvalue `+1`: `(√2+1, 1)` on
wire 1, tensored with `|0⟩` on wire 0. -/
def vB0pos : Q2 → ℝ :=
  fun p => if p.1 = 0 then (if p.2 = 0 then Real.sqrt 2 + 1 else 1) else 0

/-- Eigenvector of Bob's optimal `B0` with eigenvalue `-1`: `(1-√2, 1)` on
wire 1, tensored with `|0⟩` on wire 0. -/
def vB0neg : Q2 → ℝ :=
  fun p => if p.1 = 0 then (if p.2 = 0 then 1 - Real.sqrt 2 else 1) else 0

/-- Eigenvector of Bob's optimal `B1` with eigenvalue `+1`: `(√2+1, -1)` on
wire 1, tensored with `|0⟩` on wire 0. -/
def vB1pos : Q2 → ℝ :=
  fun p => if p.1 = 0 then (if p.2 = 0 then Real.sqrt 2 + 1 else -1) else 0

/-- Eigenvector of Bob's optimal `B1` with eigenvalue `-1`: `(1-√2, -1)` on
wire 1, tensored with `|0⟩` on wire 0. -/
def vB1neg : Q2 → ℝ :=
  fun p => if p.1 = 0 then (if p.2 = 0 then 1 - Real.sqrt 2 else -1) else 0

/-! ## Spec-modelled finite-shot sampling

The finite-shot estimation path (`@qml.set_shots(1000)`, and the hardware
device with `shots = 1000`) is implemented inside the external PennyLane
SDK / vendor client, not in this repository.  Modelled from the spec: the
backend contract is "return a scalar expectation value, either exact or
sampled with statistical noise proportional to 1/√(shot count)", where each
shot of a `±1`-valued observable is one discrete measurement sample. -/

/-- Modelled from the spec: the finite-shot estimate of an expectation value
is the empirical mean of the first `n` shot outcomes of the backend. -/
def sampleMean (o : ℕ → ℝ) (n : ℕ) : ℝ := (∑ i in Finset.range n, o i) / n

/-- Modelled from the spec: the finite-shot CHSH aggregate — each of the four
correlators is estimated by its `n`-shot empirical mean, and the four
estimates are aggregated exactly as in `compute_chsh`. -/
def sampled_chsh (o1 o2 o3 o4 : ℕ → ℝ) (n : ℕ) : ℝ :=
  chsh_aggregate [sampleMean o1 n, sampleMean o2 n, sampleMean o3 n, sampleMean o4 n]

/-- Outcome value of one shot of a `±1`-valued observable: `true ↦ 1`,
`false ↦ -1`. -/
def shotVal (b : Bool) : ℝ := if b then 1 else -1

/-- Modelled from the spec: Born probability of one shot outcome when the
`+1` outcome has probability `p`. -/
def shotP (p : ℝ) (b : Bool) : ℝ := if b then p else 1 - p

/-- Modelled from the spec: probability of a record of `n` independent
shots. -/
def shotsP (p : ℝ) {n : ℕ} (ω : Fin n → Bool) : ℝ := ∏ i, shotP p (ω i)

/-- Expectation of a statistic of the `n`-shot record under `shotsP`. -/
def shotsExp (p : ℝ) (n : ℕ) (f : (Fin n → Bool) → ℝ) : ℝ :=
  ∑ ω : Fin n → Bool, shotsP p ω * f ω

/-- The empirical mean of an `n`-shot record. -/
def empiricalMean {n : ℕ} (ω : Fin n → Bool) : ℝ :=
  (∑ i, shotVal (ω i)) / n

/-- Variance of the `n`-shot empirical mean around the exact expectation
value `2p - 1`. -/
def meanVariance (p : ℝ) (n : ℕ) : ℝ :=
  shotsExp p n (fun ω => (empiricalMean ω - (2 * p - 1)) ^ 2)

/-- Statistical noise (standard deviation) of the `n`-shot empirical mean. -/
def shotNoise (p : ℝ) (n : ℕ) : ℝ := Real.sqrt (meanVariance p n)

/-! ## Basic evaluation lemmas -/

/-- `√2 ≠ 0`. -/
lemma sqrt2_ne_zero : Real.sqrt 2 ≠ 0 := by
  positivity

/-- `√2 * √2 = 2`. -/
lemma sqrt2_mul_self : Real.sqrt 2 * Real.sqrt 2 = 2 :=
  Real.mul_self_sqrt (by norm_num)

/-- `√2 ^ 2 = 2`. -/
lemma sqrt2_sq : Real.sqrt 2 ^ 2 = 2 :=
  Real.sq_sqrt (by norm_num)

/-- `(√2)⁻¹ * (√2)⁻¹ = 2⁻¹`. -/
lemma inv_sqrt2_mul_self : (Real.sqrt 2)⁻¹ * (Real.sqrt 2)⁻¹ = 2⁻¹ := by
  rw [← mul_inv, sqrt2_mul_self]

/-- The circuit of `bell_pair` produces `(|00⟩ + |11⟩)/√2`. -/
lemma bell_pair_eq :
    bell_pair = fun p : Q2 => if p.1 = p.2 then (Real.sqrt 2)⁻¹ else 0 := by
  funext p
  obtain ⟨i, j⟩ := p
  fin_cases i <;> fin_cases j <;>
    simp [bell_pair, CNOT, ket00, kron, Hadamard, Matrix.mulVec,
      Matrix.dotProduct, Fintype.sum_prod_type, Fin.sum_univ_two,
      Matrix.one_apply, Prod.ext_iff]

/-- Expectation in the Bell state reduces to four matrix entries. -/
lemma measure_obs_eq (M : Matrix Q2 Q2 ℝ) :
    measure_obs M =
      (M (0, 0) (0, 0) + M (0, 0) (1, 1) + M (1, 1) (0, 0) + M (1, 1) (1, 1)) / 2 := by
  have h2 : ((Real.sqrt 2)⁻¹) ^ 2 = (2 : ℝ)⁻¹ := by
    rw [sq]; exact inv_sqrt2_mul_self
  simp only [measure_obs, bell_pair_eq, Matrix.mulVec, Matrix.dotProduct,
    Fintype.sum_prod_type, Fin.sum_univ_two]
  norm_num
  ring_nf
  rw [h2]
  ring

/-- `⟨Z ⊗ Z⟩ = 1` in the Bell state. -/
lemma exp_ZZ : measure_obs (kron PauliZ 1 * kron 1 PauliZ) = 1 := by
  rw [measure_obs_eq]
  simp [Matrix.mul_apply, Fintype.sum_prod_type, Fin.sum_univ_two, kron,
    PauliZ, Matrix.one_apply]

/-- `⟨Z ⊗ X⟩ = 0` in the Bell state. -/
lemma exp_ZX : measure_obs (kron PauliZ 1 * kron 1 PauliX) = 0 := by
  rw [measure_obs_eq]
  simp [Matrix.mul_apply, Fintype.sum_prod_type, Fin.sum_univ_two, kron,
    PauliZ, PauliX, Matrix.one_apply]

/-- `⟨X ⊗ Z⟩ = 0` in the Bell state. -/
lemma exp_XZ : measure_obs (kron PauliX 1 * kron 1 PauliZ) = 0 := by
  rw [measure_obs_eq]
  simp [Matrix.mul_apply, Fintype.sum_prod_type, Fin.sum_univ_two, kron,
    PauliZ, PauliX, Matrix.one_apply]

/-- `⟨X ⊗ X⟩ = 1` in the Bell state. -/
lemma exp_XX : measure_obs (kron PauliX 1 * kron 1 PauliX) = 1 := by
  rw [measure_obs_eq]
  simp [Matrix.mul_apply, Fintype.sum_prod_type, Fin.sum_univ_two, kron,
    PauliX, Matrix.one_apply]

/-- `measure_obs` is additive in the observable. -/
lemma measure_obs_add (M N : Matrix Q2 Q2 ℝ) :
    measure_obs (M + N) = measure_obs M + measure_obs N := by
  simp [measure_obs, Matrix.add_mulVec, Matrix.dotProduct_add]

/-- `measure_obs` is homogeneous in the observable. -/
lemma measure_obs_smul (c : ℝ) (M : Matrix Q2 Q2 ℝ) :
    measure_obs (c • M) = c * measure_obs M := by
  simp [measure_obs, Matrix.smul_mulVec_assoc, Matrix.dotProduct_smul,
    smul_eq_mul]

/-- `measure_obs` respects subtraction of observables. -/
lemma measure_obs_sub (M N : Matrix Q2 Q2 ℝ) :
    measure_obs (M - N) = measure_obs M - measure_obs N := by
  simp [measure_obs, Matrix.sub_mulVec, Matrix.dotProduct_sub]

/-- On a four-element list the aggregation line computes `a + b + c - d`. -/
lemma chsh_aggregate_eq (a b c d : ℝ) :
    chsh_aggregate [a, b, c, d] = a + b + c - d := by
  simp [chsh_aggregate]
  ring

/-- The four exact correlators of the optimal-basis run:
`⟨A0 B0⟩ = ⟨A0 B1⟩ = ⟨A1 B0⟩ = (√2)⁻¹` and `⟨A1 B1⟩ = -(√2)⁻¹`. -/
lemma exp_optimal :
    measure_obs (alice_observables.1 * bob_observables_optimal.1) = (Real.sqrt 2)⁻¹ ∧
    measure_obs (alice_observables.1 * bob_observables_optimal.2) = (Real.sqrt 2)⁻¹ ∧
    measure_obs (alice_observables.2 * bob_observables_optimal.1) = (Real.sqrt 2)⁻¹ ∧
    measure_obs (alice_observables.2 * bob_observables_optimal.2) = -(Real.sqrt 2)⁻¹ := by
  simp only [alice_observables, bob_observables_optimal, mul_smul_comm,
    mul_add, mul_sub, measure_obs_smul, measure_obs_add, measure_obs_sub,
    exp_ZZ, exp_ZX, exp_XZ, exp_XX]
  norm_num

/-- `1 ≤ √2`. -/
lemma one_le_sqrt2 : (1 : ℝ) ≤ Real.sqrt 2 := by
  nlinarith [sqrt2_mul_self, Real.sqrt_nonneg 2]

/-- `√2 < 2`. -/
lemma sqrt2_lt_two : Real.sqrt 2 < 2 := by
  nlinarith [sqrt2_mul_self, Real.sqrt_nonneg 2]

/-- The unrotated run of `compute_chsh` returns exactly `0`. -/
lemma compute_chsh_unrotated :
    compute_chsh alice_observables.1 alice_observables.2
      bob_observables.1 bob_observables.2 = 0 := by
  simp only [compute_chsh, alice_observables, bob_observables, List.map_cons,
    List.map_nil, exp_ZZ, exp_ZX, exp_XZ, exp_XX, chsh_aggregate_eq]
  ring

/-- The optimal-basis run of `compute_chsh` returns exactly `2√2`. -/
lemma compute_chsh_optimal :
    compute_chsh alice_observables.1 alice_observables.2
      bob_observables_optimal.1 bob_observables_optimal.2 = 2 * Real.sqrt 2 := by
  obtain ⟨h1, h2, h3, h4⟩ := exp_optimal
  simp only [compute_chsh, List.map_cons, List.map_nil, h1, h2, h3, h4,
    chsh_aggregate_eq]
  rw [sub_neg_eq_add]
  field_simp
  linear_combination (-2 : ℝ) * sqrt2_sq

/-- The hardware-section reconstruction collapses algebraically to
`√2 * (z0 + x1)`. -/
lemma CHSH_expval_eq (z0 x0 z1 x1 : ℝ) :
    CHSH_expval z0 x0 z1 x1 = Real.sqrt 2 * (z0 + x1) := by
  simp only [CHSH_expval]
  field_simp
  linear_combination (-(z0 + x1)) * sqrt2_sq

/-! ## Operator algebra for Bob's optimal observables -/

/-- The Kronecker embedding is multiplicative. -/
lemma kron_mul_kron (A B C D : Matrix (Fin 2) (Fin 2) ℝ) :
    kron A B * kron C D = kron (A * C) (B * D) := by
  ext p q
  simp only [kron, Matrix.mul_apply, Matrix.of_apply, Fintype.sum_prod_type,
    Fin.sum_univ_two]
  ring

/-- The Kronecker embedding sends identities to the identity. -/
lemma kron_one_one : kron 1 1 = (1 : Matrix Q2 Q2 ℝ) := by
  ext p q
  obtain ⟨a, b⟩ := p
  obtain ⟨c, d⟩ := q
  fin_cases a <;> fin_cases b <;> fin_cases c <;> fin_cases d <;>
    simp [kron, Matrix.one_apply, Prod.ext_iff]

/-- The Kronecker embedding is additive in its second argument. -/
lemma kron_add_right (A B C : Matrix (Fin 2) (Fin 2) ℝ) :
    kron A (B + C) = kron A B + kron A C := by
  ext p q
  simp [kron, mul_add]

/-- `Z * Z = 1` on one qubit. -/
lemma PauliZ_mul_self : PauliZ * PauliZ = 1 := by
  ext i j
  fin_cases i <;> fin_cases j <;>
    simp [PauliZ, Matrix.mul_apply, Fin.sum_univ_two, Matrix.one_apply]

/-- `X * X = 1` on one qubit. -/
lemma PauliX_mul_self : PauliX * PauliX = 1 := by
  ext i j
  fin_cases i <;> fin_cases j <;>
    simp [PauliX, Matrix.mul_apply, Fin.sum_univ_two, Matrix.one_apply]

/-- `Z` and `X` anticommute: `Z * X + X * Z = 0`. -/
lemma PauliZ_PauliX_anticomm : PauliZ * PauliX + PauliX * PauliZ = 0 := by
  ext i j
  fin_cases i <;> fin_cases j <;>
    simp [PauliZ, PauliX, Matrix.mul_apply, Fin.sum_univ_two]

/-- Both optimal observables of Bob square to the identity. -/
lemma bob_optimal_sq :
    bob_observables_optimal.1 * bob_observables_optimal.1 = 1 ∧
    bob_observables_optimal.2 * bob_observables_optimal.2 = 1 := by
  have key : ∀ s : ℝ, s = 1 ∨ s = -1 →
      ((Real.sqrt 2)⁻¹ • (kron 1 PauliZ + s • kron 1 PauliX)) *
        ((Real.sqrt 2)⁻¹ • (kron 1 PauliZ + s • kron 1 PauliX)) = 1 := by
    intro s hs
    rw [smul_mul_smul_comm, inv_sqrt2_mul_self]
    have expand : (kron 1 PauliZ + s • kron 1 PauliX) *
        (kron 1 PauliZ + s • kron 1 PauliX) =
        kron 1 (PauliZ * PauliZ) + (s * s) • kron 1 (PauliX * PauliX) +
          s • kron 1 (PauliZ * PauliX + PauliX * PauliZ) := by
      rw [kron_add_right]
      simp only [add_mul, mul_add, smul_mul_assoc, mul_smul_comm,
        kron_mul_kron, one_mul, smul_smul, smul_add]
      abel
    rw [expand, PauliZ_PauliX_anticomm, PauliZ_mul_self, PauliX_mul_self,
      kron_one_one]
    have hss : s * s = 1 := by rcases hs with h | h <;> rw [h] <;> norm_num
    have hker : kron (1 : Matrix (Fin 2) (Fin 2) ℝ) 0 = 0 := by
      ext p q
      simp [kron]
    rw [hss, hker, one_smul, smul_zero, add_zero, smul_add, ← add_smul]
    norm_num
  constructor
  · have h := key 1 (Or.inl rfl)
    simpa [bob_observables_optimal] using h
  · have h := key (-1) (Or.inr rfl)
    have hrw : kron 1 PauliZ + (-1 : ℝ) • kron 1 PauliX =
        kron 1 PauliZ - kron 1 PauliX := by
      rw [neg_one_smul, sub_eq_add_neg]
    rw [hrw] at h
    simpa [bob_observables_optimal] using h

/-- `B0` fixes `vB0pos` (eigenvalue `+1`). -/
lemma mulVec_vB0pos : bob_observables_optimal.1.mulVec vB0pos = vB0pos := by
  funext p
  obtain ⟨a, b⟩ := p
  fin_cases a <;> fin_cases b <;>
    simp only [bob_observables_optimal, vB0pos, Matrix.mulVec,
      Matrix.dotProduct, Fintype.sum_prod_type, Fin.sum_univ_two,
      Matrix.smul_apply, Matrix.add_apply, kron, Matrix.of_apply, PauliZ,
      PauliX, Matrix.one_apply, Matrix.cons_val', Matrix.cons_val_zero,
      Matrix.cons_val_one, Matrix.head_cons, Matrix.head_fin_const,
      Matrix.empty_val', Matrix.cons_val_fin_one] <;>
    norm_num <;>
    field_simp <;>
    ring_nf <;>
    linarith [sqrt2_sq]

/-- `B0` negates `vB0neg` (eigenvalue `-1`). -/
lemma mulVec_vB0neg : bob_observables_optimal.1.mulVec vB0neg = -vB0neg := by
  funext p
  obtain ⟨a, b⟩ := p
  fin_cases a <;> fin_cases b <;>
    simp only [bob_observables_optimal, vB0neg, Matrix.mulVec,
      Matrix.dotProduct, Fintype.sum_prod_type, Fin.sum_univ_two,
      Matrix.smul_apply, Matrix.add_apply, kron, Matrix.of_apply, PauliZ,
      PauliX, Matrix.one_apply, Matrix.cons_val', Matrix.cons_val_zero,
      Matrix.cons_val_one, Matrix.head_cons, Matrix.head_fin_const,
      Matrix.empty_val', Matrix.cons_val_fin_one, Pi.neg_apply] <;>
    norm_num <;>
    field_simp <;>
    ring_nf <;>
    linarith [sqrt2_sq]

/-- `B1` fixes `vB1pos` (eigenvalue `+1`). -/
lemma mulVec_vB1pos : bob_observables_optimal.2.mulVec vB1pos = vB1pos := by
  funext p
  obtain ⟨a, b⟩ := p
  fin_cases a <;> fin_cases b <;>
    simp only [bob_observables_optimal, vB1pos, Matrix.mulVec,
      Matrix.dotProduct, Fintype.sum_prod_type, Fin.sum_univ_two,
      Matrix.smul_apply, Matrix.sub_apply, kron, Matrix.of_apply, PauliZ,
      PauliX, Matrix.one_apply, Matrix.cons_val', Matrix.cons_val_zero,
      Matrix.cons_val_one, Matrix.head_cons, Matrix.head_fin_const,
      Matrix.empty_val', Matrix.cons_val_fin_one] <;>
    norm_num <;>
    field_simp <;>
    ring_nf <;>
    linarith [sqrt2_sq]

/-- `B1` negates `vB1neg` (eigenvalue `-1`). -/
lemma mulVec_vB1neg : bob_observables_optimal.2.mulVec vB1neg = -vB1neg := by
  funext p
  obtain ⟨a, b⟩ := p
  fin_cases a <;> fin_cases b <;>
    simp only [bob_observables_optimal, vB1neg, Matrix.mulVec,
      Matrix.dotProduct, Fintype.sum_prod_type, Fin.sum_univ_two,
      Matrix.smul_apply, Matrix.sub_apply, kron, Matrix.of_apply, PauliZ,
      PauliX, Matrix.one_apply, Matrix.cons_val', Matrix.cons_val_zero,
      Matrix.cons_val_one, Matrix.head_cons, Matrix.head_fin_const,
      Matrix.empty_val', Matrix.cons_val_fin_one, Pi.neg_apply] <;>
    norm_num <;>
    field_simp <;>
    ring_nf <;>
    linarith [sqrt2_sq]

/-- None of the four eigenvectors is the zero vector. -/
lemma eigenvectors_ne_zero :
    vB0pos ≠ 0 ∧ vB0neg ≠ 0 ∧ vB1pos ≠ 0 ∧ vB1neg ≠ 0 := by
  refine ⟨fun h => ?_, fun h => ?_, fun h => ?_, fun h => ?_⟩ <;>
    [have := congrFun h ((0 : Fin 2), (1 : Fin 2));
     have := congrFun h ((0 : Fin 2), (1 : Fin 2));
     have := congrFun h ((0 : Fin 2), (1 : Fin 2));
     have := congrFun h ((0 : Fin 2), (1 : Fin 2))] <;>
    simp [vB0pos, vB0neg, vB1pos, vB1neg] at this

/-! ## Finite-shot sampling: expectation calculus -/

/-- Expectation under zero shots evaluates the statistic at the unique
record. -/
lemma shotsExp_zero (p : ℝ) (f : (Fin 0 → Bool) → ℝ) :
    shotsExp p 0 f = f default := by
  rw [shotsExp, Fintype.sum_unique]
  have h1 : ∀ ω : Fin 0 → Bool, shotsP p ω = 1 := by
    intro ω
    simp [shotsP]
  rw [h1, one_mul]
  exact congrArg f (Subsingleton.elim _ _)

/-- `shotP` at the `+1` outcome. -/
lemma shotP_true (p : ℝ) : shotP p true = p := rfl

/-- `shotP` at the `-1` outcome. -/
lemma shotP_false (p : ℝ) : shotP p false = 1 - p := rfl

/-- `shotVal` at the `+1` outcome. -/
lemma shotVal_true : shotVal true = 1 := rfl

/-- `shotVal` at the `-1` outcome. -/
lemma shotVal_false : shotVal false = -1 := rfl

/-- Peeling off the first shot of an `(n+1)`-shot expectation. -/
lemma shotsExp_succ (p : ℝ) (n : ℕ) (f : (Fin (n + 1) → Bool) → ℝ) :
    shotsExp p (n + 1) f =
      ∑ b : Bool, shotP p b * shotsExp p n (fun ω => f (Fin.cons b ω)) := by
  rw [shotsExp,
    ← Fintype.sum_equiv (Fin.consEquiv fun _ => Bool)
      (fun q : Bool × (Fin n → Bool) =>
        shotsP p (Fin.cons q.1 q.2) * f (Fin.cons q.1 q.2))
      (fun ω => shotsP p ω * f ω) (fun q => by simp [Fin.consEquiv])]
  rw [Fintype.sum_prod_type]
  refine Finset.sum_congr rfl fun b _ => ?_
  rw [shotsExp, Finset.mul_sum]
  refine Finset.sum_congr rfl fun ω _ => ?_
  have hc : shotsP p (Fin.cons b ω) = shotP p b * shotsP p ω := by
    simp [shotsP, Fin.prod_univ_succ]
  rw [hc]
  ring

/-- Expectation is additive in the statistic. -/
lemma shotsExp_add (p : ℝ) (n : ℕ) (f g : (Fin n → Bool) → ℝ) :
    shotsExp p n (fun ω => f ω + g ω) = shotsExp p n f + shotsExp p n g := by
  simp [shotsExp, mul_add, Finset.sum_add_distrib]

/-- Expectation is homogeneous in the statistic. -/
lemma shotsExp_smul (p : ℝ) (n : ℕ) (c : ℝ) (f : (Fin n → Bool) → ℝ) :
    shotsExp p n (fun ω => c * f ω) = c * shotsExp p n f := by
  rw [shotsExp, shotsExp, Finset.mul_sum]
  exact Finset.sum_congr rfl fun ω _ => by ring

/-- The total probability of all `n`-shot records is `1`. -/
lemma shotsExp_const (p : ℝ) (n : ℕ) (c : ℝ) :
    shotsExp p n (fun _ => c) = c := by
  induction n with
  | zero => rw [shotsExp_zero]
  | succ n ih =>
      rw [shotsExp_succ]
      simp only [ih, Fintype.sum_bool, shotP_true, shotP_false]
      ring

/-- Mean of the shot-value sum: `E[∑ shotVal] = n * (2p - 1)`. -/
lemma shotsExp_sum (p : ℝ) (n : ℕ) :
    shotsExp p n (fun ω => ∑ i, shotVal (ω i)) = n * (2 * p - 1) := by
  induction n with
  | zero =>
      rw [shotsExp_zero]
      simp
  | succ n ih =>
      rw [shotsExp_succ]
      have hrw : ∀ b : Bool,
          (fun ω : Fin n → Bool =>
              ∑ i, shotVal ((Fin.cons b ω : Fin (n + 1) → Bool) i)) =
            fun ω => shotVal b + ∑ i, shotVal (ω i) := by
        intro b
        funext ω
        rw [Fin.sum_univ_succ]
        simp
      simp only [hrw, shotsExp_add, shotsExp_const, ih, Fintype.sum_bool,
        shotP_true, shotP_false, shotVal_true, shotVal_false]
      push_cast
      ring

/-- Second moment of the shot-value sum:
`E[(∑ shotVal)^2] = n + n*(n-1)*(2p-1)^2`. -/
lemma shotsExp_sum_sq (p : ℝ) (n : ℕ) :
    shotsExp p n (fun ω => (∑ i, shotVal (ω i)) ^ 2) =
      n + n * ((n : ℝ) - 1) * (2 * p - 1) ^ 2 := by
  induction n with
  | zero =>
      rw [shotsExp_zero]
      simp
  | succ n ih =>
      rw [shotsExp_succ]
      have hrw : ∀ b : Bool,
          (fun ω : Fin n → Bool =>
              (∑ i, shotVal ((Fin.cons b ω : Fin (n + 1) → Bool) i)) ^ 2) =
            fun ω => 1 + (2 * shotVal b) * (∑ i, shotVal (ω i)) +
              (∑ i, shotVal (ω i)) ^ 2 := by
        intro b
        funext ω
        rw [Fin.sum_univ_succ]
        simp only [Fin.cons_zero, Fin.cons_succ]
        have hb : shotVal b * shotVal b = 1 := by
          cases b <;> norm_num [shotVal]
        nlinarith [hb]
      simp only [hrw, shotsExp_add, shotsExp_const, shotsExp_smul,
        shotsExp_sum, ih, Fintype.sum_bool, shotP_true, shotP_false,
        shotVal_true, shotVal_false]
      push_cast
      ring

/-- Variance of the `n`-shot empirical mean: `(1 - e²)/n` for exact
expectation `e = 2p - 1` — the square of a noise level proportional to
`1/√n`. -/
lemma meanVariance_eq (p : ℝ) (n : ℕ) (hn : 0 < n) :
    meanVariance p n = (1 - (2 * p - 1) ^ 2) / n := by
  have hn' : (n : ℝ) ≠ 0 := Nat.cast_ne_zero.mpr hn.ne'
  have hsplit : ∀ ω : Fin n → Bool,
      (empiricalMean ω - (2 * p - 1)) ^ 2 =
        (1 / (n : ℝ) ^ 2) * (∑ i, shotVal (ω i)) ^ 2 +
          (-(2 * (2 * p - 1)) / n) * (∑ i, shotVal (ω i)) +
          (2 * p - 1) ^ 2 := by
    intro ω
    rw [empiricalMean]
    field_simp
    ring
  rw [meanVariance]
  simp only [hsplit]
  rw [shotsExp_add, shotsExp_add, shotsExp_smul, shotsExp_smul,
    shotsExp_const, shotsExp_sum, shotsExp_sum_sq]
  field_simp
  ring

/-- The statistical noise of the `n`-shot mean is
`√(1 - e²) * (1/√n)`: proportional to `1/√(shot count)`. -/
lemma shotNoise_eq (p : ℝ) (n : ℕ) (hp : p ∈ Set.Icc (0 : ℝ) 1) (hn : 0 < n) :
    shotNoise p n = Real.sqrt (1 - (2 * p - 1) ^ 2) * (1 / Real.sqrt n) := by
  obtain ⟨hp0, hp1⟩ := hp
  have he : 0 ≤ 1 - (2 * p - 1) ^ 2 := by nlinarith
  rw [shotNoise, meanVariance_eq p n hn, Real.sqrt_div he, div_eq_mul_inv,
    one_div]

/-- If each of the four sample means converges to its exact expectation,
the sampled CHSH aggregate converges to the exact aggregate. -/
lemma sampled_chsh_tendsto (e1 e2 e3 e4 : ℝ) (o1 o2 o3 o4 : ℕ → ℝ)
    (h1 : Filter.Tendsto (sampleMean o1) Filter.atTop (nhds e1))
    (h2 : Filter.Tendsto (sampleMean o2) Filter.atTop (nhds e2))
    (h3 : Filter.Tendsto (sampleMean o3) Filter.atTop (nhds e3))
    (h4 : Filter.Tendsto (sampleMean o4) Filter.atTop (nhds e4)) :
    Filter.Tendsto (fun n => sampled_chsh o1 o2 o3 o4 n) Filter.atTop
      (nhds (chsh_aggregate [e1, e2, e3, e4])) := by
  simp only [sampled_chsh, chsh_aggregate_eq]
  exact ((h1.add h2).add h3).sub h4

/-- A sum of `±1`-valued outcomes over any index range is an integer. -/
lemma sum_pm_one_int (o : ℕ → ℝ) (ho : ∀ i, o i = 1 ∨ o i = -1) (n : ℕ) :
    ∃ z : ℤ, ∑ i in Finset.range n, o i = (z : ℝ) := by
  induction n with
  | zero => exact ⟨0, by simp⟩
  | succ n ih =>
      obtain ⟨z, hz⟩ := ih
      rcases ho n with h | h
      · refine ⟨z + 1, ?_⟩
        rw [Finset.sum_range_succ, hz, h]
        push_cast
        ring
      · refine ⟨z - 1, ?_⟩
        rw [Finset.sum_range_succ, hz, h]
        push_cast
        ring

/-- At any finite shot count, a sampled CHSH aggregate built from `±1`-valued
shot outcomes is rational, hence never equal to the exact optimal value
`2√2`. -/
lemma sampled_chsh_ne_two_sqrt_two (o1 o2 o3 o4 : ℕ → ℝ) (n : ℕ)
    (h1 : ∀ i, o1 i = 1 ∨ o1 i = -1) (h2 : ∀ i, o2 i = 1 ∨ o2 i = -1)
    (h3 : ∀ i, o3 i = 1 ∨ o3 i = -1) (h4 : ∀ i, o4 i = 1 ∨ o4 i = -1) :
    sampled_chsh o1 o2 o3 o4 n ≠ 2 * Real.sqrt 2 := by
  obtain ⟨z1, hz1⟩ := sum_pm_one_int o1 h1 n
  obtain ⟨z2, hz2⟩ := sum_pm_one_int o2 h2 n
  obtain ⟨z3, hz3⟩ := sum_pm_one_int o3 h3 n
  obtain ⟨z4, hz4⟩ := sum_pm_one_int o4 h4 n
  have hval : sampled_chsh o1 o2 o3 o4 n =
      (((z1 + z2 + z3 - z4 : ℚ) / (n : ℚ) : ℚ) : ℝ) := by
    rw [sampled_chsh, chsh_aggregate_eq]
    simp only [sampleMean, hz1, hz2, hz3, hz4]
    push_cast
    ring
  have hirr : Irrational (2 * Real.sqrt 2) := by
    have h2q : ((2 : ℚ) : ℝ) = (2 : ℝ) := by norm_num
    have := irrational_sqrt_two.rat_mul (q := 2) (by norm_num)
    rwa [h2q] at this
  rw [hval]
  exact fun h => hirr.ne_rat _ h.symm

/-- The `n`-shot empirical mean of the constant `+1` outcome sequence tends
to `1`. -/
lemma sampleMean_const_one :
    Filter.Tendsto (sampleMean fun _ => (1 : ℝ)) Filter.atTop (nhds 1) := by
  have hev : ∀ᶠ n in Filter.atTop, sampleMean (fun _ => (1 : ℝ)) n = 1 := by
    filter_upwards [Filter.eventually_ge_atTop 1] with n hn
    have hn' : (n : ℝ) ≠ 0 := Nat.cast_ne_zero.mpr (by omega)
    rw [sampleMean, Finset.sum_const, Finset.card_range, nsmul_eq_mul,
      mul_one, div_self hn']
  exact Filter.Tendsto.congr' (Filter.EventuallyEq.symm hev) tendsto_const_nhds

/-- `(√2)⁻¹ ∈ [-1, 1]`. -/
lemma inv_sqrt2_mem_Icc : (Real.sqrt 2)⁻¹ ∈ Set.Icc (-1 : ℝ) 1 := by
  constructor
  · have : (0 : ℝ) ≤ (Real.sqrt 2)⁻¹ := by positivity
    linarith
  · exact inv_le_one_of_one_le₀ one_le_sqrt2

/-! ## Claims -/

/-- C1: for all real expectation values `e1, e2, e3, e4`, the aggregation
performed by `compute_chsh` (the line `np.sum(expvals[:3]) - expvals[3]`)
returns `e1 + e2 + e3 - e4`: the four correlators are combined with the
fixed signs `(+,+,+,-)`. -/
theorem compute_chsh_aggregation_signs :
    (∀ e1 e2 e3 e4 : ℝ, chsh_aggregate [e1, e2, e3, e4] = e1 + e2 + e3 - e4) ∧
    ∀ A0 A1 B0 B1 : Matrix Q2 Q2 ℝ,
      compute_chsh A0 A1 B0 B1 =
        chsh_aggregate (([A0 * B0, A0 * B1, A1 * B0, A1 * B1]).map measure_obs) :=
  ⟨chsh_aggregate_eq, fun _ _ _ _ => rfl⟩

/-- C2: with Alice's observables `Z(0), X(0)` and Bob's optimal observables
`(Z(1)±X(1))/√2`, exact simulation of the Bell pair makes `compute_chsh`
return exactly `2√2`, hence within tolerance `1e-9` of it. -/
theorem optimal_basis_chsh_value :
    compute_chsh alice_observables.1 alice_observables.2
        bob_observables_optimal.1 bob_observables_optimal.2 = 2 * Real.sqrt 2 ∧
    |compute_chsh alice_observables.1 alice_observables.2
        bob_observables_optimal.1 bob_observables_optimal.2 - 2 * Real.sqrt 2| ≤
      1e-9 := by
  refine ⟨compute_chsh_optimal, ?_⟩
  rw [compute_chsh_optimal, sub_self, abs_zero]
  norm_num

/-- C3: in the unrotated basis case (`A0 = Z(0)`, `A1 = X(0)`, `B0 = Z(1)`,
`B1 = X(1)`) the four exact correlators are `1, 0, 0, 1` and `compute_chsh`
returns exactly `0`. -/
theorem unrotated_basis_chsh_value :
    measure_obs (alice_observables.1 * bob_observables.1) = 1 ∧
    measure_obs (alice_observables.1 * bob_observables.2) = 0 ∧
    measure_obs (alice_observables.2 * bob_observables.1) = 0 ∧
    measure_obs (alice_observables.2 * bob_observables.2) = 1 ∧
    compute_chsh alice_observables.1 alice_observables.2
      bob_observables.1 bob_observables.2 = 0 :=
  ⟨exp_ZZ, exp_ZX, exp_XZ, exp_XX, compute_chsh_unrotated⟩

/-- C4: the hardware-section aggregation (reconstruct the four correlators
from the raw expectation values and form `A0B0 + A0B1 + A1B0 - A1B1`)
computes the same function as the aggregation of `compute_chsh` applied to
the four reconstructed correlators. -/
theorem hardware_aggregation_refines_simulation :
    ∀ z0 x0 z1 x1 : ℝ,
      CHSH_expval z0 x0 z1 x1 =
        chsh_aggregate [(z0 + x0) / Real.sqrt 2, (z0 - x0) / Real.sqrt 2,
          (z1 + x1) / Real.sqrt 2, (z1 - x1) / Real.sqrt 2] := by
  intro z0 x0 z1 x1
  rw [chsh_aggregate_eq]
  simp only [CHSH_expval]

/-- C5 (counterexample): the inputs `(1, 1, 1, -1)` all lie in `[-1, 1]`,
yet the aggregate of `compute_chsh`'s aggregation is `4`, which exceeds the
claimed bound `2√2`. -/
theorem chsh_quantum_bound_counterexample :
    ((1 : ℝ) ∈ Set.Icc (-1 : ℝ) 1) ∧ ((-1 : ℝ) ∈ Set.Icc (-1 : ℝ) 1) ∧
    chsh_aggregate [1, 1, 1, -1] = 4 ∧
    ¬ |chsh_aggregate [1, 1, 1, -1]| ≤ 2 * Real.sqrt 2 := by
  refine ⟨by norm_num, by norm_num, by rw [chsh_aggregate_eq]; norm_num, ?_⟩
  rw [chsh_aggregate_eq]
  push_neg
  have h4 : (1 : ℝ) + 1 + 1 - -1 = 4 := by norm_num
  rw [h4, abs_of_nonneg (by norm_num : (0 : ℝ) ≤ 4)]
  nlinarith [sqrt2_lt_two, Real.sqrt_nonneg 2]

/-- C5 (amended): the `2√2` bound does hold for the program's CHSH values:
the hardware-section reconstruction is bounded by `2√2` in magnitude for any
raw expectation values in `[-1, 1]`, and both exact-simulation runs of
`compute_chsh` (unrotated and optimal) have magnitude at most `2√2`.  (For
arbitrary correlator inputs in `[-1, 1]` the aggregation is only bounded
by `4`.) -/
theorem chsh_quantum_bound_amended (z0 x0 z1 x1 : ℝ)
    (h0 : z0 ∈ Set.Icc (-1 : ℝ) 1) (_h1 : x0 ∈ Set.Icc (-1 : ℝ) 1)
    (_h2 : z1 ∈ Set.Icc (-1 : ℝ) 1) (h3 : x1 ∈ Set.Icc (-1 : ℝ) 1) :
    |CHSH_expval z0 x0 z1 x1| ≤ 2 * Real.sqrt 2 ∧
    |compute_chsh alice_observables.1 alice_observables.2 bob_observables.1
        bob_observables.2| ≤ 2 * Real.sqrt 2 ∧
    |compute_chsh alice_observables.1 alice_observables.2
        bob_observables_optimal.1 bob_observables_optimal.2| ≤ 2 * Real.sqrt 2 := by
  obtain ⟨hz0l, hz0r⟩ := h0
  obtain ⟨hx1l, hx1r⟩ := h3
  refine ⟨?_, ?_, ?_⟩
  · rw [CHSH_expval_eq, abs_mul, abs_of_nonneg (Real.sqrt_nonneg 2)]
    have habs : |z0 + x1| ≤ 2 := by
      rw [abs_le]
      constructor <;> linarith
    nlinarith [Real.sqrt_nonneg 2]
  · rw [compute_chsh_unrotated, abs_zero]
    positivity
  · rw [compute_chsh_optimal,
      abs_of_nonneg (by positivity : (0 : ℝ) ≤ 2 * Real.sqrt 2)]

/-- Witness for C5 (amended) at the concrete input `(1, 0, 0, 1)`. -/
theorem chsh_quantum_bound_amended_witness :
    |CHSH_expval 1 0 0 1| ≤ 2 * Real.sqrt 2 ∧
    |compute_chsh alice_observables.1 alice_observables.2 bob_observables.1
        bob_observables.2| ≤ 2 * Real.sqrt 2 ∧
    |compute_chsh alice_observables.1 alice_observables.2
        bob_observables_optimal.1 bob_observables_optimal.2| ≤ 2 * Real.sqrt 2 :=
  chsh_quantum_bound_amended 1 0 0 1
    (Set.mem_Icc.mpr ⟨by norm_num, by norm_num⟩)
    (Set.mem_Icc.mpr ⟨by norm_num, by norm_num⟩)
    (Set.mem_Icc.mpr ⟨by norm_num, by norm_num⟩)
    (Set.mem_Icc.mpr ⟨by norm_num, by norm_num⟩)

/-- C6: for correlator inputs each in `[-1, 1]`, the aggregate
`e1 + e2 + e3 - e4` computed by `compute_chsh`'s aggregation lies in
`[-4, 4]`. -/
theorem chsh_aggregate_range (e1 e2 e3 e4 : ℝ)
    (h1 : e1 ∈ Set.Icc (-1 : ℝ) 1) (h2 : e2 ∈ Set.Icc (-1 : ℝ) 1)
    (h3 : e3 ∈ Set.Icc (-1 : ℝ) 1) (h4 : e4 ∈ Set.Icc (-1 : ℝ) 1) :
    chsh_aggregate [e1, e2, e3, e4] ∈ Set.Icc (-4 : ℝ) 4 := by
  obtain ⟨h1l, h1r⟩ := h1
  obtain ⟨h2l, h2r⟩ := h2
  obtain ⟨h3l, h3r⟩ := h3
  obtain ⟨h4l, h4r⟩ := h4
  rw [chsh_aggregate_eq]
  exact Set.mem_Icc.mpr ⟨by linarith, by linarith⟩

/-- Witness for C6 at the concrete input `(1, 1, 1, -1)`. -/
theorem chsh_aggregate_range_witness :
    chsh_aggregate [1, 1, 1, -1] ∈ Set.Icc (-4 : ℝ) 4 :=
  chsh_aggregate_range 1 1 1 (-1)
    (Set.mem_Icc.mpr ⟨by norm_num, by norm_num⟩)
    (Set.mem_Icc.mpr ⟨by norm_num, by norm_num⟩)
    (Set.mem_Icc.mpr ⟨by norm_num, by norm_num⟩)
    (Set.mem_Icc.mpr ⟨by norm_num, by norm_num⟩)

/-- C7: all eight exact expectation values measured by `compute_chsh` — the
four of the unrotated run and the four of the optimal run — lie in
`[-1, 1]`. -/
theorem simulation_expvals_unit_bounded :
    measure_obs (alice_observables.1 * bob_observables.1) ∈ Set.Icc (-1 : ℝ) 1 ∧
    measure_obs (alice_observables.1 * bob_observables.2) ∈ Set.Icc (-1 : ℝ) 1 ∧
    measure_obs (alice_observables.2 * bob_observables.1) ∈ Set.Icc (-1 : ℝ) 1 ∧
    measure_obs (alice_observables.2 * bob_observables.2) ∈ Set.Icc (-1 : ℝ) 1 ∧
    measure_obs (alice_observables.1 * bob_observables_optimal.1) ∈ Set.Icc (-1 : ℝ) 1 ∧
    measure_obs (alice_observables.1 * bob_observables_optimal.2) ∈ Set.Icc (-1 : ℝ) 1 ∧
    measure_obs (alice_observables.2 * bob_observables_optimal.1) ∈ Set.Icc (-1 : ℝ) 1 ∧
    measure_obs (alice_observables.2 * bob_observables_optimal.2) ∈ Set.Icc (-1 : ℝ) 1 := by
  obtain ⟨q1, q2, q3, q4⟩ := exp_optimal
  obtain ⟨hil, hir⟩ := inv_sqrt2_mem_Icc
  refine ⟨?_, ?_, ?_, ?_, ?_, ?_, ?_, ?_⟩
  · rw [show measure_obs (alice_observables.1 * bob_observables.1) = 1 from exp_ZZ]
    norm_num
  · rw [show measure_obs (alice_observables.1 * bob_observables.2) = 0 from exp_ZX]
    norm_num
  · rw [show measure_obs (alice_observables.2 * bob_observables.1) = 0 from exp_XZ]
    norm_num
  · rw [show measure_obs (alice_observables.2 * bob_observables.2) = 1 from exp_XX]
    norm_num
  · rw [q1]
    exact Set.mem_Icc.mpr ⟨hil, hir⟩
  · rw [q2]
    exact Set.mem_Icc.mpr ⟨hil, hir⟩
  · rw [q3]
    exact Set.mem_Icc.mpr ⟨hil, hir⟩
  · rw [q4]
    exact Set.mem_Icc.mpr ⟨by linarith, by linarith⟩

/-- C8 (spec-modelled sampling backend): (1) if each of the four sample
means converges to its exact expectation value as the shot count tends to
infinity, the sampled CHSH aggregate converges to the exact aggregate;
(2) the statistical noise of an `n`-shot mean is `√(1-e²) · (1/√n)`,
proportional to `1/√(shot count)`; (3) at the optimal value `2√2` the
agreement is only in the limit: no finite-shot aggregate of `±1`-valued
outcomes equals `2√2` exactly. -/
theorem sampled_chsh_statistical_consistency :
    (∀ (e1 e2 e3 e4 : ℝ) (o1 o2 o3 o4 : ℕ → ℝ),
        Filter.Tendsto (sampleMean o1) Filter.atTop (nhds e1) →
        Filter.Tendsto (sampleMean o2) Filter.atTop (nhds e2) →
        Filter.Tendsto (sampleMean o3) Filter.atTop (nhds e3) →
        Filter.Tendsto (sampleMean o4) Filter.atTop (nhds e4) →
        Filter.Tendsto (fun n => sampled_chsh o1 o2 o3 o4 n) Filter.atTop
          (nhds (chsh_aggregate [e1, e2, e3, e4]))) ∧
    (∀ (p : ℝ) (n : ℕ), p ∈ Set.Icc (0 : ℝ) 1 → 0 < n →
        shotNoise p n = Real.sqrt (1 - (2 * p - 1) ^ 2) * (1 / Real.sqrt n)) ∧
    (∀ (o1 o2 o3 o4 : ℕ → ℝ) (n : ℕ),
        (∀ i, o1 i = 1 ∨ o1 i = -1) → (∀ i, o2 i = 1 ∨ o2 i = -1) →
        (∀ i, o3 i = 1 ∨ o3 i = -1) → (∀ i, o4 i = 1 ∨ o4 i = -1) →
        sampled_chsh o1 o2 o3 o4 n ≠ 2 * Real.sqrt 2) :=
  ⟨fun e1 e2 e3 e4 o1 o2 o3 o4 h1 h2 h3 h4 =>
      sampled_chsh_tendsto e1 e2 e3 e4 o1 o2 o3 o4 h1 h2 h3 h4,
   fun p n hp hn => shotNoise_eq p n hp hn,
   fun o1 o2 o3 o4 n h1 h2 h3 h4 =>
      sampled_chsh_ne_two_sqrt_two o1 o2 o3 o4 n h1 h2 h3 h4⟩

/-- Witness for C8: the constant `+1` outcome sequences at `p = 1/2`,
`n = 4` shots and `n = 5` shots. -/
theorem sampled_chsh_statistical_consistency_witness :
    Filter.Tendsto
      (fun n => sampled_chsh (fun _ => 1) (fun _ => 1) (fun _ => 1) (fun _ => 1) n)
      Filter.atTop (nhds (chsh_aggregate [1, 1, 1, 1])) ∧
    shotNoise (1 / 2) 4 =
      Real.sqrt (1 - (2 * (1 / 2 : ℝ) - 1) ^ 2) * (1 / Real.sqrt 4) ∧
    sampled_chsh (fun _ => 1) (fun _ => 1) (fun _ => 1) (fun _ => 1) 5 ≠
      2 * Real.sqrt 2 :=
  ⟨sampled_chsh_statistical_consistency.1 1 1 1 1 _ _ _ _
      sampleMean_const_one sampleMean_const_one sampleMean_const_one
      sampleMean_const_one,
   sampled_chsh_statistical_consistency.2.1 (1 / 2) 4
      (Set.mem_Icc.mpr ⟨by norm_num, by norm_num⟩) (by norm_num),
   sampled_chsh_statistical_consistency.2.2 _ _ _ _ 5
      (fun _ => Or.inl rfl) (fun _ => Or.inl rfl) (fun _ => Or.inl rfl)
      (fun _ => Or.inl rfl)⟩

/-- C9: the hardware-section CHSH value algebraically collapses to
`√2 * (z0 + x1)`: the reconstructed contributions of `x0 = <A0 X1>` and
`z1 = <A1 Z1>` cancel, so the aggregate depends on only two of the four
measured expectation values. -/
theorem hardware_chsh_two_expvals :
    ∀ z0 x0 z1 x1 : ℝ, CHSH_expval z0 x0 z1 x1 = Real.sqrt 2 * (z0 + x1) :=
  CHSH_expval_eq

/-- C10: both optimal observables of Bob are normalized involutions — each
squares to the identity — and each has both `+1` and `-1` as eigenvalues
(witnessed by explicit nonzero eigenvectors), so each is a valid `±1`-valued
observable like the bare Pauli observables. -/
theorem bob_optimal_valid_observables :
    bob_observables_optimal.1 * bob_observables_optimal.1 = 1 ∧
    bob_observables_optimal.2 * bob_observables_optimal.2 = 1 ∧
    (∃ v : Q2 → ℝ, v ≠ 0 ∧ bob_observables_optimal.1.mulVec v = v) ∧
    (∃ v : Q2 → ℝ, v ≠ 0 ∧ bob_observables_optimal.1.mulVec v = -v) ∧
    (∃ v : Q2 → ℝ, v ≠ 0 ∧ bob_observables_optimal.2.mulVec v = v) ∧
    (∃ v : Q2 → ℝ, v ≠ 0 ∧ bob_observables_optimal.2.mulVec v = -v) := by
  obtain ⟨hn1, hn2, hn3, hn4⟩ := eigenvectors_ne_zero
  exact ⟨bob_optimal_sq.1, bob_optimal_sq.2,
    ⟨vB0pos, hn1, mulVec_vB0pos⟩, ⟨vB0neg, hn2, mulVec_vB0neg⟩,
    ⟨vB1pos, hn3, mulVec_vB1pos⟩, ⟨vB1neg, hn4, mulVec_vB1neg⟩⟩

end
